import Mathlib

/-!
Shallow embedding of the `todo` terminal task tracker (Rust sources under
`src/`): the key-action decoder (`src/action.rs`), the text layout function
(`src/helpers.rs`), the persistence format (`src/helpers.rs`), and the
interactive state machine (`src/app.rs`), together with theorems checking the
specification's claims against these definitions.

Conventions: an item / buffer is a `List Char` (the Rust `String` viewed as its
character sequence); machine `usize` indices are `Nat`; Rust functions that can
panic are embedded as `Option`-returning functions where `none` marks the
panicking execution; functions that bail out of the main loop with a quit
sentinel leave the state unchanged (the loop simply stops afterwards).
-/

namespace TodoApp

/-! ### Model of `src/tab.rs` -/

/-- The active tab, from `src/tab.rs`. -/
inductive Tab
  | todos
  | dones
deriving DecidableEq, Repr

/-- `Tab::toggle` from `src/tab.rs`. -/
def Tab.toggle : Tab → Tab
  | .todos => .dones
  | .dones => .todos

/-! ### Model of crossterm key events (external collaborator) -/

/-- The subset of `crossterm::event::KeyCode` the decoder inspects; `other`
stands for every remaining variant (all of which fall through to the
unrecognized-input branch). -/
inductive KeyCode
  | enter
  | tab
  | backspace
  | esc
  | up
  | down
  | left
  | right
  | f (n : Nat)
  | char (c : Char)
  | other
deriving DecidableEq, Repr

/-- A key event: code plus the two modifier bits the decoder reads. -/
structure KeyEvent where
  code : KeyCode
  shift : Bool
  ctrl : Bool
deriving DecidableEq, Repr

/-! ### Model of `src/action.rs` -/

/-- `TabAction` from `src/action.rs`. -/
inductive TabAction
  | toggle
  | left
  | right
deriving DecidableEq, Repr

/-- `Action` from `src/action.rs`. The `insert`, `moveCursor` and `moveItem`
payloads are `KeyCode`s exactly as in the source. -/
inductive Action
  | enter
  | switchTab (t : TabAction)
  | insert (d : KeyCode)
  | edit
  | moveCursor (d : KeyCode)
  | moveItem (d : KeyCode)
  | gotoBegin
  | gotoEnd
  | delete
  | saveQuit
  | noSaveQuit
  | showHelp
  | showNumber
deriving DecidableEq, Repr

/-- `impl TryFrom<KeyEvent> for Action` from `src/action.rs`, match arms in
source order (`Err` becomes `none`). Arms guarded by modifiers fall through to
later arms exactly as in Rust: an unshifted Up/Down is a cursor move, a shifted
one an item move, a shifted Left/Right matches nothing. -/
def Action.tryFrom (e : KeyEvent) : Option Action :=
  match e.code with
  | .enter => some .enter
  | .tab => some (.switchTab .toggle)
  | .f n => if n = 1 then some .showHelp else none
  | .char c =>
    if c = 'l' then some (.switchTab .right)
    else if c = 'h' then some (.switchTab .left)
    else if c = 'n' then some .showNumber
    else if c = 'i' then some (.insert .up)
    else if c = 'o' then some (.insert .down)
    else if c = 'e' then some .edit
    else if c = 'k' then some (.moveCursor .up)
    else if c = 'j' then some (.moveCursor .down)
    else if c = 'K' then some (.moveItem .up)
    else if c = 'J' then some (.moveItem .down)
    else if c = 'g' then some .gotoBegin
    else if c = 'G' then some .gotoEnd
    else if c = 'd' then some .delete
    else if c = 'q' then some .saveQuit
    else if c = 'Q' then some .noSaveQuit
    else if c = 'c' then (if e.ctrl then some .noSaveQuit else none)
    else none
  | .right => if e.shift then none else some (.switchTab .right)
  | .left => if e.shift then none else some (.switchTab .left)
  | .up => if e.shift then some (.moveItem .up) else some (.moveCursor .up)
  | .down => if e.shift then some (.moveItem .down) else some (.moveCursor .down)
  | _ => none

/-- `InsertAction` from `src/action.rs`. -/
inductive InsertAction
  | char (c : Char)
  | deleteChar
  | enter
  | cancel
deriving DecidableEq, Repr

/-- `impl TryFrom<KeyEvent> for InsertAction` from `src/action.rs`. -/
def InsertAction.tryFrom (e : KeyEvent) : Option InsertAction :=
  match e.code with
  | .char c => some (.char c)
  | .backspace => some .deleteChar
  | .enter => some .enter
  | .esc => some .cancel
  | _ => none

/-! ### Model of the text layout function, `split_to_fit` in `src/helpers.rs` -/

/-- Model of the external unicode-width crate call `c.width().unwrap_or(0)`
used by `split_to_fit`: control characters yield 0 (`width()` is `None` there,
mapped to 0 by `unwrap_or`), wide East-Asian characters yield 2, everything
else 1. Only the existence of 0/1/2-column characters matters to the theorems
below; they hold for any width assignment. -/
def charWidth (c : Char) : Nat :=
  if c.toNat < 0x20 ∨ c.toNat = 0x7F then 0
  else if (0x1100 ≤ c.toNat ∧ c.toNat ≤ 0x115F) ∨
          (0x2E80 ≤ c.toNat ∧ c.toNat ≤ 0xA4CF) ∨
          (0xAC00 ≤ c.toNat ∧ c.toNat ≤ 0xD7A3) ∨
          (0xF900 ≤ c.toNat ∧ c.toNat ≤ 0xFAFF) ∨
          (0xFF00 ≤ c.toNat ∧ c.toNat ≤ 0xFF60) ∨
          (0x20000 ≤ c.toNat ∧ c.toNat ≤ 0x3FFFD) then 2
  else 1

/-- Total display width of a character sequence. -/
def listWidth (l : List Char) : Nat := (l.map charWidth).sum

/-- Loop body of `split_to_fit` (`src/helpers.rs` lines 76-86): walk the
characters accumulating display width; at the first character that would push
the running width over `maxW`, split there (`s.split_at(i)`); if none does,
return the whole string with an empty remainder. `acc` holds the already
accepted characters in reverse. -/
def splitToFitGo (maxW : Nat) : List Char → Nat → List Char → List Char × List Char
  | [], _, acc => (acc.reverse, [])
  | c :: rest, width, acc =>
    if width + charWidth c > maxW then (acc.reverse, c :: rest)
    else splitToFitGo maxW rest (width + charWidth c) (c :: acc)

/-- `split_to_fit` from `src/helpers.rs`: one greedy split of `s` at width
budget `maxW`, returning the prefix that fits and the raw remainder. -/
def splitToFit (s : List Char) (maxW : Nat) : List Char × List Char :=
  splitToFitGo maxW s 0 []

theorem splitToFitGo_append (maxW : Nat) :
    ∀ (s : List Char) (width : Nat) (acc : List Char),
      (splitToFitGo maxW s width acc).1 ++ (splitToFitGo maxW s width acc).2 =
        acc.reverse ++ s := by
  intro s
  induction s with
  | nil => intro width acc; simp [splitToFitGo]
  | cons c rest ih =>
    intro width acc
    by_cases h : width + charWidth c > maxW
    · simp [splitToFitGo, h]
    · simp only [splitToFitGo, if_pos, if_neg h, ih]
      simp

theorem splitToFitGo_width (maxW : Nat) :
    ∀ (s : List Char) (width : Nat) (acc : List Char),
      width = listWidth acc.reverse → width ≤ maxW →
      listWidth (splitToFitGo maxW s width acc).1 ≤ maxW := by
  intro s
  induction s with
  | nil => intro width acc hw hle; simpa [splitToFitGo, ← hw] using hle
  | cons c rest ih =>
    intro width acc hw hle
    by_cases h : width + charWidth c > maxW
    · simpa [splitToFitGo, h, ← hw] using hle
    · simp only [splitToFitGo, if_neg h]
      apply ih
      · have hv : listWidth (c :: acc).reverse = listWidth acc.reverse + charWidth c := by
          simp [listWidth]
        omega
      · omega

/-- C1 (amended): `split_to_fit` performs a single greedy split: the two
returned pieces concatenate back to the input, and the first piece's display
width is at most the budget; but when the budget is below the very first
character's width the first piece is empty (zero characters, not a forced
one-character segment), so no forward progress is guaranteed, and the
remainder piece is returned unsplit (its width may exceed the budget). -/
theorem splitToFit_single_split_spec (s : List Char) (w : Nat) :
    (splitToFit s w).1 ++ (splitToFit s w).2 = s ∧
    listWidth (splitToFit s w).1 ≤ w ∧
    (∀ c rest, s = c :: rest → w < charWidth c → (splitToFit s w).1 = []) := by
  refine ⟨?_, ?_, ?_⟩
  · simpa using splitToFitGo_append w s 0 []
  · exact splitToFitGo_width w s 0 [] (by simp [listWidth]) (Nat.zero_le w)
  · rintro c rest rfl h
    show (splitToFitGo w (c :: rest) 0 []).1 = []
    unfold splitToFitGo
    rw [if_pos (by omega : 0 + charWidth c > w)]
    simp

/-- Witness for `splitToFit_single_split_spec` at a concrete wide character
(U+4E2D, display width 2) and budget 1. -/
theorem splitToFit_single_split_spec_witness :
    ([Char.ofNat 0x4E2D] = Char.ofNat 0x4E2D :: ([] : List Char)) ∧
      1 < charWidth (Char.ofNat 0x4E2D) ∧
      (splitToFit [Char.ofNat 0x4E2D] 1).1 = [] :=
  ⟨rfl, by decide,
    (splitToFit_single_split_spec [Char.ofNat 0x4E2D] 1).2.2
      (Char.ofNat 0x4E2D) [] rfl (by decide)⟩

/-- C1 counterexample: at `s` a single wide character (U+4E2D, width 2) and
budget `w = 1`, the claimed forced one-character segment is not produced: the
first piece is empty, and the only other piece has width `2 > w`; so both the
forward-progress clause and the every-segment-fits clause of the claim fail. -/
theorem splitToFit_forced_segment_counterexample :
    charWidth (Char.ofNat 0x4E2D) = 2 ∧
    splitToFit [Char.ofNat 0x4E2D] 1 = ([], [Char.ofNat 0x4E2D]) ∧
    (splitToFit [Char.ofNat 0x4E2D] 1).1.length ≠ 1 ∧
    ¬ listWidth (splitToFit [Char.ofNat 0x4E2D] 1).2 ≤ 1 := by
  decide

/-! ### Model of persistence: `save_to_file` and `get_todos_dones` in
`src/helpers.rs`.

Modelled from the spec where the source is missing: the module `globals.rs`
defining the literals `TODO_PREFIX` and `DONE_PREFIX` is not among the sources
(only its users are), so, following the spec, the prefixes are two fixed
literal line prefixes, "distinct, non-ambiguous" — formalised as the
hypothesis that neither literal is a prefix of the other. All persistence
definitions take them as parameters `tp` and `dp`. -/

/-- `str::strip_prefix` (from the Rust standard library) on character lists:
`some` of the remainder when `p` is a prefix of `l`, otherwise `none`. -/
def stripPfx : List Char → List Char → Option (List Char)
  | [], l => some l
  | _ :: _, [] => none
  | p :: ps, c :: cs => if p = c then stripPfx ps cs else none

theorem stripPfx_append (p s : List Char) : stripPfx p (p ++ s) = some s := by
  induction p with
  | nil => rfl
  | cons c ps ih => simp [stripPfx, ih]

theorem eq_append_of_stripPfx {p l s : List Char} (h : stripPfx p l = some s) :
    l = p ++ s := by
  induction p generalizing l with
  | nil =>
    simp only [stripPfx, Option.some.injEq] at h
    simp [h]
  | cons c ps ih =>
    cases l with
    | nil => simp [stripPfx] at h
    | cons d ls =>
      by_cases hc : c = d
      · subst hc
        simp only [stripPfx, if_pos rfl] at h
        simpa using ih h
      · simp [stripPfx, hc] at h

/-- The line list written by `save_to_file` (`src/helpers.rs` lines 179-202):
every todo in order with the todo prefix, then every done in order with the
done prefix. -/
def saveLines (tp dp : List Char) (todos dones : List (List Char)) :
    List (List Char) :=
  todos.map (fun l => tp ++ l) ++ dones.map (fun l => dp ++ l)

/-- The file contents produced by the `writeln!` calls of `save_to_file`: each
line followed by a newline character. -/
def serializeLines (lines : List (List Char)) : List Char :=
  (lines.map (fun l => l ++ ['\n'])).flatten

/-- `save_to_file` as a function from document to file contents. -/
def saveToFile (tp dp : List Char) (todos dones : List (List Char)) :
    List Char :=
  serializeLines (saveLines tp dp todos dones)

/-- Model of `BufRead::lines` used by `get_todos_dones`: split the file
contents on newline characters, and strip one carriage return preceding each
stripped newline (`lines` removes a trailing `\\n` or CRLF `\\r\\n` from every
line); a trailing newline produces no extra empty line and empty contents
produce no lines; a final line with no terminating newline keeps any trailing
carriage return. `acc` holds the current line in reverse, so the character to
strip is its head. -/
def splitLinesGo : List Char → List Char → List (List Char)
  | [], acc => [acc.reverse]
  | c :: rest, acc =>
    if c = '\n' then
      (if acc.head? = some '\r' then acc.tail.reverse else acc.reverse) ::
        (if rest.isEmpty then [] else splitLinesGo rest [])
    else splitLinesGo rest (c :: acc)

/-- `BufRead::lines` on whole contents: no lines for an empty file. -/
def splitLines (s : List Char) : List (List Char) :=
  match s with
  | [] => []
  | c :: rest => splitLinesGo (c :: rest) []

/-- The line-consuming loop of `get_todos_dones` (`src/helpers.rs` lines
47-74): strip the todo prefix, else the done prefix, else fail with the
malformed line. -/
def parseLinesGo (tp dp : List Char) :
    List (List Char) → List (List Char) → List (List Char) →
      Except (List Char) (List (List Char) × List (List Char))
  | todos, dones, [] => .ok (todos, dones)
  | todos, dones, l :: rest =>
    match stripPfx tp l with
    | some s => parseLinesGo tp dp (todos ++ [s]) dones rest
    | none =>
      match stripPfx dp l with
      | some s => parseLinesGo tp dp todos (dones ++ [s]) rest
      | none => .error l

/-- `get_todos_dones` as a function from file contents to the two lists. -/
def getTodosDones (tp dp : List Char) (contents : List Char) :
    Except (List Char) (List (List Char) × List (List Char)) :=
  parseLinesGo tp dp [] [] (splitLines contents)

theorem splitLinesGo_line {l : List Char} (hl : '\n' ∉ l) :
    ∀ (t acc : List Char), (l.reverse ++ acc).head? ≠ some '\r' →
      splitLinesGo (l ++ '\n' :: t) acc =
        (acc.reverse ++ l) :: (if t.isEmpty then [] else splitLinesGo t []) := by
  induction l with
  | nil =>
    intro t acc hr
    have hr2 : acc.head? ≠ some '\r' := by simpa using hr
    simp [splitLinesGo, hr2]
  | cons c ls ih =>
    intro t acc hr
    have hc : c ≠ '\n' := by
      intro h; exact hl (by simp [h])
    have hls : '\n' ∉ ls := fun h => hl (by simp [h])
    have hr2 : (ls.reverse ++ (c :: acc)).head? ≠ some '\r' := by
      simpa [List.append_assoc] using hr
    have step : splitLinesGo ((c :: ls) ++ '\n' :: t) acc =
        splitLinesGo (ls ++ '\n' :: t) (c :: acc) := by
      simp [splitLinesGo, hc]
    rw [step, ih hls t (c :: acc) hr2]
    simp

theorem serializeLines_ne_nil (l : List Char) (ls : List (List Char)) :
    serializeLines (l :: ls) ≠ [] := by
  cases l <;> simp [serializeLines]

theorem splitLines_serializeLines {lines : List (List Char)}
    (h : ∀ l ∈ lines, '\n' ∉ l)
    (hcr : ∀ l ∈ lines, l.getLast? ≠ some '\r') :
    splitLines (serializeLines lines) = lines := by
  induction lines with
  | nil => rfl
  | cons l ls ih =>
    have hl : '\n' ∉ l := h l (by simp)
    have hls : ∀ x ∈ ls, '\n' ∉ x := fun x hx => h x (by simp [hx])
    have hrl : l.getLast? ≠ some '\r' := hcr l (by simp)
    have hrls : ∀ x ∈ ls, x.getLast? ≠ some '\r' :=
      fun x hx => hcr x (by simp [hx])
    have hser : serializeLines (l :: ls) = l ++ '\n' :: serializeLines ls := by
      simp [serializeLines]
    have hgo : splitLinesGo (l ++ '\n' :: serializeLines ls) [] =
        l :: (if (serializeLines ls).isEmpty then [] else
          splitLinesGo (serializeLines ls) []) := by
      simpa using splitLinesGo_line hl (serializeLines ls) []
        (by simpa using hrl)
    have hmain : splitLines (serializeLines (l :: ls)) =
        l :: (if (serializeLines ls).isEmpty then [] else
          splitLinesGo (serializeLines ls) []) := by
      rw [hser]
      cases hcase : l ++ '\n' :: serializeLines ls with
      | nil => exact absurd hcase (by simp)
      | cons c rest => rw [← hcase, splitLines.eq_def]; cases l <;> simpa [hcase] using hgo
    cases ls with
    | nil => simpa [serializeLines] using hmain
    | cons x xs =>
      have hne := serializeLines_ne_nil x xs
      rw [hmain, if_neg (by simpa [List.isEmpty_iff] using hne)]
      have : splitLinesGo (serializeLines (x :: xs)) [] =
          splitLines (serializeLines (x :: xs)) := by
        rw [splitLines.eq_def]
        cases hcase : serializeLines (x :: xs) with
        | nil => exact absurd hcase hne
        | cons c rest => rfl
      rw [this, ih hls hrls]

theorem parseLinesGo_todo_lines (tp dp : List Char) (ts : List (List Char)) :
    ∀ (at_ ad : List (List Char)) (rest : List (List Char)),
      parseLinesGo tp dp at_ ad (ts.map (fun l => tp ++ l) ++ rest) =
        parseLinesGo tp dp (at_ ++ ts) ad rest := by
  induction ts with
  | nil => intro at_ ad rest; simp
  | cons t ts ih =>
    intro at_ ad rest
    have step : parseLinesGo tp dp at_ ad
        (((t :: ts).map fun l => tp ++ l) ++ rest) =
        parseLinesGo tp dp (at_ ++ [t]) ad
          ((ts.map fun l => tp ++ l) ++ rest) := by
      simp [parseLinesGo, stripPfx_append]
    rw [step, ih]
    simp

theorem stripPfx_none_forall {p l : List Char} (h : stripPfx p l = none) :
    ∀ u, l ≠ p ++ u := by
  intro u hu
  rw [hu, stripPfx_append] at h
  exact Option.noConfusion h

theorem stripPfx_of_other {tp dp : List Char}
    (htp : ∀ u, dp ≠ tp ++ u) (hdp : ∀ u, tp ≠ dp ++ u) (s : List Char) :
    stripPfx tp (dp ++ s) = none := by
  cases hs : stripPfx tp (dp ++ s) with
  | none => rfl
  | some u =>
    have heq : dp ++ s = tp ++ u := eq_append_of_stripPfx hs
    rcases List.append_eq_append_iff.mp heq with ⟨a, ha, _⟩ | ⟨a, ha, _⟩
    · exact absurd ha (hdp a)
    · exact absurd ha (htp a)

theorem parseLinesGo_done_lines (tp dp : List Char)
    (htp : ∀ u, dp ≠ tp ++ u) (hdp : ∀ u, tp ≠ dp ++ u)
    (ds : List (List Char)) :
    ∀ (at_ ad : List (List Char)) (rest : List (List Char)),
      parseLinesGo tp dp at_ ad (ds.map (fun l => dp ++ l) ++ rest) =
        parseLinesGo tp dp at_ (ad ++ ds) rest := by
  induction ds with
  | nil => intro at_ ad rest; simp
  | cons d ds ih =>
    intro at_ ad rest
    have step : parseLinesGo tp dp at_ ad
        (((d :: ds).map fun l => dp ++ l) ++ rest) =
        parseLinesGo tp dp at_ (ad ++ [d])
          ((ds.map fun l => dp ++ l) ++ rest) := by
      simp [parseLinesGo, stripPfx_of_other htp hdp, stripPfx_append]
    rw [step, ih]
    simp

theorem getLast?_append_ne_cr {p l : List Char}
    (hp : p.getLast? ≠ some '\r') (hl : l.getLast? ≠ some '\r') :
    (p ++ l).getLast? ≠ some '\r' := by
  rw [List.getLast?_append]
  cases hx : l.getLast? with
  | none => simpa using hp
  | some c =>
    rw [hx] at hl
    simpa using hl

/-- C4 (amended): round-trip of persistence. For any pair of lists whose
items are newline-free and do not end in a carriage return, and any two
prefix literals that are newline-free, do not end in a carriage return, and
are not prefixes of one another (the spec's "distinct, non-ambiguous"
requirement on the missing `globals.rs` literals), loading the file written
by `save_to_file` recovers exactly the same todo and done lists, same items
in the same order. The carriage-return exclusion is forced by
`BufRead::lines`, which strips a CRLF pair, so an item whose text ends in
`\\r` loses that final character on reload. -/
theorem save_load_roundtrip (tp dp : List Char) (todos dones : List (List Char))
    (htp0 : stripPfx tp dp = none) (hdp0 : stripPfx dp tp = none)
    (htn : '\n' ∉ tp) (hdn : '\n' ∉ dp)
    (htr : tp.getLast? ≠ some '\r') (hdr : dp.getLast? ≠ some '\r')
    (hti : ∀ l ∈ todos, '\n' ∉ l) (hdi : ∀ l ∈ dones, '\n' ∉ l)
    (htir : ∀ l ∈ todos, l.getLast? ≠ some '\r')
    (hdir : ∀ l ∈ dones, l.getLast? ≠ some '\r') :
    getTodosDones tp dp (saveToFile tp dp todos dones) =
      .ok (todos, dones) := by
  have htp : ∀ u, dp ≠ tp ++ u := stripPfx_none_forall htp0
  have hdp : ∀ u, tp ≠ dp ++ u := stripPfx_none_forall hdp0
  have hlines : ∀ l ∈ saveLines tp dp todos dones, '\n' ∉ l := by
    intro l hl
    rcases List.mem_append.mp hl with h | h
    · rcases List.mem_map.mp h with ⟨x, hx, rfl⟩
      simp only [List.mem_append]
      rintro (h1 | h2)
      · exact htn h1
      · exact hti x hx h2
    · rcases List.mem_map.mp h with ⟨x, hx, rfl⟩
      simp only [List.mem_append]
      rintro (h1 | h2)
      · exact hdn h1
      · exact hdi x hx h2
  have hlinescr : ∀ l ∈ saveLines tp dp todos dones,
      l.getLast? ≠ some '\r' := by
    intro l hl
    rcases List.mem_append.mp hl with h | h
    · rcases List.mem_map.mp h with ⟨x, hx, rfl⟩
      exact getLast?_append_ne_cr htr (htir x hx)
    · rcases List.mem_map.mp h with ⟨x, hx, rfl⟩
      exact getLast?_append_ne_cr hdr (hdir x hx)
  unfold getTodosDones saveToFile
  rw [splitLines_serializeLines hlines hlinescr]
  unfold saveLines
  rw [parseLinesGo_todo_lines,
    show (dones.map fun l => dp ++ l) =
      (dones.map fun l => dp ++ l) ++ [] by simp,
    parseLinesGo_done_lines tp dp htp hdp]
  simp [parseLinesGo]

/-- Concrete todo-prefix literal used by the round-trip witness. -/
def tpW : List Char := ['T', 'O', 'D', 'O', ':', ' ']

/-- Concrete done-prefix literal used by the round-trip witness. -/
def dpW : List Char := ['D', 'O', 'N', 'E', ':', ' ']

/-- Witness for `save_load_roundtrip` with prefixes "TODO: " and "DONE: " and
small concrete lists including a wide Unicode item, an empty item and
embedded spaces. -/
theorem save_load_roundtrip_witness :
    getTodosDones tpW dpW
        (saveToFile tpW dpW
          [['b', 'u', 'y', ' ', '水'], []] [['d', 'o', 'n', 'e']]) =
      .ok ([[ 'b', 'u', 'y', ' ', '水'], []], [['d', 'o', 'n', 'e']]) :=
  save_load_roundtrip tpW dpW
    [['b', 'u', 'y', ' ', '水'], []] [['d', 'o', 'n', 'e']]
    (by decide) (by decide) (by decide) (by decide)
    (by decide) (by decide) (by decide) (by decide)
    (by decide) (by decide)

/-- C4 counterexample: an item ending in a carriage return does not
round-trip. Saving the single todo item "a\\r" writes the line
`TODO: a\\r` followed by `\\n`; `BufRead::lines` strips the CRLF pair, so the
document loads back with the todo item "a" — not the original "a\\r" the
claim requires for arbitrary newline-free Unicode text. -/
theorem save_load_cr_counterexample :
    getTodosDones tpW dpW (saveToFile tpW dpW [['a', '\r']] []) =
      .ok ([[ 'a']], []) ∧
    (['a', '\r'] : List Char) ≠ ['a'] :=
  ⟨rfl, by decide⟩

/-! ### Model of the interactive state machine, `src/app.rs` -/

/-- `InsertMode` from `src/app.rs`. -/
inductive InsertMode
  | new
  | edit (snap : List Char)
deriving DecidableEq, Repr

/-- `Mode` from `src/app.rs`. -/
inductive Mode
  | normal
  | insert (im : InsertMode)
  | help
deriving DecidableEq, Repr

/-- The mutable fields of `struct App` (`src/app.rs`); the file path is
irrelevant to the state machine and omitted. -/
structure App where
  todos : List (List Char)
  dones : List (List Char)
  todosIdx : Nat
  donesIdx : Nat
  currTab : Tab
  mode : Mode
deriving DecidableEq, Repr

/-- The list selected by the current tab (the arena+index pattern of the
source's per-tab `match`es). -/
def App.activeList (s : App) : List (List Char) :=
  match s.currTab with
  | .todos => s.todos
  | .dones => s.dones

/-- The cursor of the current tab. -/
def App.activeIdx (s : App) : Nat :=
  match s.currTab with
  | .todos => s.todosIdx
  | .dones => s.donesIdx

/-- The list of the inactive tab. -/
def App.otherList (s : App) : List (List Char) :=
  match s.currTab with
  | .todos => s.dones
  | .dones => s.todos

/-- The cursor of the inactive tab. -/
def App.otherIdx (s : App) : Nat :=
  match s.currTab with
  | .todos => s.donesIdx
  | .dones => s.todosIdx

/-- `usize::MAX`, the sentinel used by `GotoEnd`. -/
def usizeMax : Nat := 2 ^ 64 - 1

/-- `clamp_indexes` (`src/app.rs` lines 451-454): `idx.clamp(0,
len.saturating_sub(1))` on a `usize` is `min idx (len - 1)` with saturating
subtraction, which `Nat` subtraction is. -/
def clampIndexes (s : App) : App :=
  { s with
    todosIdx := min s.todosIdx (s.todos.length - 1),
    donesIdx := min s.donesIdx (s.dones.length - 1) }

/-- `handle_enter_press` (`src/app.rs` lines 295-312): no-op on an empty
source list, otherwise `Vec::remove` at the source cursor (which panics —
`none` — when the cursor is out of bounds) and `push` onto the other list. -/
def handleEnterPress (s : App) : Option App :=
  match s.currTab with
  | .todos =>
    if s.todos.isEmpty then some s
    else
      match s.todos[s.todosIdx]? with
      | some v =>
        some { s with todos := s.todos.eraseIdx s.todosIdx,
                      dones := s.dones ++ [v] }
      | none => none
  | .dones =>
    if s.dones.isEmpty then some s
    else
      match s.dones[s.donesIdx]? with
      | some v =>
        some { s with dones := s.dones.eraseIdx s.donesIdx,
                      todos := s.todos ++ [v] }
      | none => none

/-- `handle_cursor_move` (`src/app.rs` lines 314-324): unbounded increment on
Down, saturating decrement on Up; any other key code is the `unreachable!`
branch. -/
def handleCursorMove (d : KeyCode) (s : App) : Option App :=
  match d with
  | .down =>
    match s.currTab with
    | .todos => some { s with todosIdx := s.todosIdx + 1 }
    | .dones => some { s with donesIdx := s.donesIdx + 1 }
  | .up =>
    match s.currTab with
    | .todos => some { s with todosIdx := s.todosIdx - 1 }
    | .dones => some { s with donesIdx := s.donesIdx - 1 }
  | _ => none

/-- `handle_delete` (`src/app.rs` lines 326-337): no-op on an empty list,
otherwise `Vec::remove` at the cursor (panic — `none` — when out of
bounds). -/
def handleDelete (s : App) : Option App :=
  match s.currTab with
  | .todos =>
    if s.todos.isEmpty then some s
    else if s.todosIdx < s.todos.length then
      some { s with todos := s.todos.eraseIdx s.todosIdx }
    else none
  | .dones =>
    if s.dones.isEmpty then some s
    else if s.donesIdx < s.dones.length then
      some { s with dones := s.dones.eraseIdx s.donesIdx }
    else none

/-- `start_insert_mode` (`src/app.rs` lines 339-356): switch to Insert-New,
insert an empty item at the cursor (Up) or cursor+1 (Down), clamped into
`[0, len]`, and move the cursor onto it. Other key codes are `unreachable!`. -/
def startInsertMode (d : KeyCode) (s : App) : Option App :=
  match d with
  | .up =>
    match s.currTab with
    | .todos =>
      some { s with mode := .insert .new,
                    todos := s.todos.insertIdx (min s.todosIdx s.todos.length) [],
                    todosIdx := min s.todosIdx s.todos.length }
    | .dones =>
      some { s with mode := .insert .new,
                    dones := s.dones.insertIdx (min s.donesIdx s.dones.length) [],
                    donesIdx := min s.donesIdx s.dones.length }
  | .down =>
    match s.currTab with
    | .todos =>
      some { s with mode := .insert .new,
                    todos := s.todos.insertIdx (min (s.todosIdx + 1) s.todos.length) [],
                    todosIdx := min (s.todosIdx + 1) s.todos.length }
    | .dones =>
      some { s with mode := .insert .new,
                    dones := s.dones.insertIdx (min (s.donesIdx + 1) s.dones.length) [],
                    donesIdx := min (s.donesIdx + 1) s.dones.length }
  | _ => none

/-- `get_current_buffer` (`src/app.rs` lines 369-374). -/
def getCurrentBuffer (s : App) : Option (List Char) :=
  match s.currTab with
  | .todos => s.todos[s.todosIdx]?
  | .dones => s.dones[s.donesIdx]?

/-- `start_edit_mode` (`src/app.rs` lines 358-363): no-op when the current
buffer does not exist, otherwise snapshot it into Insert-Edit mode. -/
def startEditMode (s : App) : App :=
  match getCurrentBuffer s with
  | none => s
  | some snap => { s with mode := .insert (.edit snap) }

/-- Replace the current item's buffer (the `*buf = ...` / `buf.push` writes
through the mutable borrow in `handle_insert_mode`). -/
def setCurrentBuffer (s : App) (b : List Char) : App :=
  match s.currTab with
  | .todos => { s with todos := s.todos.set s.todosIdx b }
  | .dones => { s with dones := s.dones.set s.donesIdx b }

/-- The `InsertAction::DeleteChar` branch of `handle_insert_mode`
(`src/app.rs` lines 394-398): `buf.remove(buf.len() - 1)` removes the byte at
index `len - 1`, which is a character boundary only when the final character
occupies a single UTF-8 byte; on a multi-byte final character `String::remove`
panics (`none`). An empty buffer is left unchanged. -/
def deleteCharBuf (buf : List Char) : Option (List Char) :=
  match buf.getLast? with
  | none => some buf
  | some c => if c.utf8Size = 1 then some buf.dropLast else none

/-- `handle_insert_mode` (`src/app.rs` lines 376-400): first the `unwrap` of
the current buffer (panic — `none` — when the cursor is out of bounds), then
the action: Enter commits, Cancel restores the snapshot (Edit) or deletes the
fresh item (New), a character appends, Backspace trims the last byte. -/
def handleInsertMode (a : InsertAction) (s : App) : Option App :=
  match getCurrentBuffer s with
  | none => none
  | some buf =>
    match a with
    | .enter => some { s with mode := .normal }
    | .cancel =>
      match s.mode with
      | .insert (.edit snap) =>
        some { setCurrentBuffer s snap with mode := .normal }
      | .insert .new => handleDelete { s with mode := .normal }
      | _ => none
    | .char c => some (setCurrentBuffer s (buf ++ [c]))
    | .deleteChar => (deleteCharBuf buf).map (setCurrentBuffer s)

/-- `Vec::swap` on the item lists (callers establish both bounds). -/
def listSwap (l : List (List Char)) (i j : Nat) : List (List Char) :=
  (l.set i (l.getD j [])).set j (l.getD i [])

/-- `handle_move_item` (`src/app.rs` lines 402-432): no-op on an empty list or
at the boundary in the move direction, otherwise swap the item with its
neighbor and move the cursor with it; `Vec::swap` panics (`none`) when either
index is out of bounds, and other key codes are `unreachable!`. -/
def handleMoveItem (d : KeyCode) (s : App) : Option App :=
  match s.currTab with
  | .todos =>
    if s.todos.isEmpty then some s
    else
      match d with
      | .down =>
        if s.todosIdx = s.todos.length - 1 then some s
        else if s.todosIdx < s.todos.length ∧ s.todosIdx + 1 < s.todos.length then
          some { s with todos := listSwap s.todos s.todosIdx (s.todosIdx + 1),
                        todosIdx := s.todosIdx + 1 }
        else none
      | .up =>
        if s.todosIdx = 0 then some s
        else if s.todosIdx < s.todos.length ∧ s.todosIdx - 1 < s.todos.length then
          some { s with todos := listSwap s.todos s.todosIdx (s.todosIdx - 1),
                        todosIdx := s.todosIdx - 1 }
        else none
      | _ => none
  | .dones =>
    if s.dones.isEmpty then some s
    else
      match d with
      | .down =>
        if s.donesIdx = s.dones.length - 1 then some s
        else if s.donesIdx < s.dones.length ∧ s.donesIdx + 1 < s.dones.length then
          some { s with dones := listSwap s.dones s.donesIdx (s.donesIdx + 1),
                        donesIdx := s.donesIdx + 1 }
        else none
      | .up =>
        if s.donesIdx = 0 then some s
        else if s.donesIdx < s.dones.length ∧ s.donesIdx - 1 < s.dones.length then
          some { s with dones := listSwap s.dones s.donesIdx (s.donesIdx - 1),
                        donesIdx := s.donesIdx - 1 }
        else none
      | _ => none

/-- `goto_list_pos` (`src/app.rs` lines 434-442): set the active cursor
unconditionally (the clamp pass corrects it). -/
def gotoListPos (p : Nat) (s : App) : App :=
  match s.currTab with
  | .todos => { s with todosIdx := p }
  | .dones => { s with donesIdx := p }

/-- `execute_action` (`src/app.rs` lines 276-293). The `SwitchTab` arm, as in
the source, ignores the decoder's direction payload and toggles. `SaveQuit`
and `NoSaveQuit` bail out of the main loop with the state unchanged. The
source's `match` has no arm for `ShowNumber` (the variant exists only in
`src/action.rs`); it is modelled as leaving the state unchanged. -/
def executeAction (a : Action) (s : App) : Option App :=
  match a with
  | .enter => handleEnterPress s
  | .switchTab _ => some { s with currTab := s.currTab.toggle }
  | .insert d => startInsertMode d s
  | .edit => some (startEditMode s)
  | .moveCursor d => handleCursorMove d s
  | .moveItem d => handleMoveItem d s
  | .gotoBegin => some (gotoListPos 0 s)
  | .gotoEnd => some (gotoListPos usizeMax s)
  | .delete => handleDelete s
  | .saveQuit => some s
  | .noSaveQuit => some s
  | .showHelp => some { s with mode := .help }
  | .showNumber => some s

/-- `handle_help_mode` (`src/app.rs` lines 444-449). -/
def handleHelpMode (a : Action) (s : App) : App :=
  match a with
  | .saveQuit => { s with mode := .normal }
  | .noSaveQuit => { s with mode := .normal }
  | _ => s

/-- The event-dispatch step of `main_loop` (`src/app.rs` lines 86-104): decode
by the current mode and apply; an unrecognized key is silently ignored. -/
def processKey (k : KeyEvent) (s : App) : Option App :=
  match s.mode with
  | .normal =>
    match Action.tryFrom k with
    | some a => executeAction a s
    | none => some s
  | .insert _ =>
    match InsertAction.tryFrom k with
    | some a => handleInsertMode a s
    | none => some s
  | .help =>
    match Action.tryFrom k with
    | some a => some (handleHelpMode a s)
    | none => some s

/-- One iteration of `main_loop` (`src/app.rs` lines 72-105): the clamp pass
runs first, then either the poll times out (no key) or one key event is
dispatched. -/
inductive Step : App → App → Prop
  | noKey (s : App) : Step s (clampIndexes s)
  | key (s s' : App) (k : KeyEvent) :
      processKey k (clampIndexes s) = some s' → Step s s'

/-- States reachable from a freshly constructed `App` (`App::new`: loaded
lists, both cursors 0, Todos tab, Normal mode) by main-loop iterations. -/
inductive Reachable : App → Prop
  | start (todos dones : List (List Char)) :
      Reachable ⟨todos, dones, 0, 0, .todos, .normal⟩
  | step {s s' : App} : Reachable s → Step s s' → Reachable s'

/-! ### Supporting lemmas -/

theorem isEmpty_false_of_ne_nil {α : Type} {l : List α} (h : l ≠ []) :
    l.isEmpty = false := by
  cases l with
  | nil => exact absurd rfl h
  | cons a as => rfl

theorem getElem?_listSwap (l : List (List Char)) (i j : Nat)
    (hi : i < l.length) (hj : j < l.length) (n : Nat) :
    (listSwap l i j)[n]? = if n = j then l[i]? else if n = i then l[j]? else l[n]? := by
  unfold listSwap
  have hdi := List.getD_eq_getElem?_getD l i ([] : List Char)
  have hdj := List.getD_eq_getElem?_getD l j ([] : List Char)
  have hgi := List.getElem?_eq_getElem hi
  have hgj := List.getElem?_eq_getElem hj
  by_cases hnj : n = j
  · subst hnj
    rw [if_pos rfl, List.getElem?_set_self (by simpa using hj), hdi, hgi]
    rfl
  · rw [if_neg hnj, List.getElem?_set_ne (fun h => hnj h.symm)]
    by_cases hni : n = i
    · subst hni
      rw [if_pos rfl, List.getElem?_set_self hi, hdj, hgj]
      rfl
    · rw [if_neg hni, List.getElem?_set_ne (fun h => hni h.symm)]

theorem length_listSwap (l : List (List Char)) (i j : Nat) :
    (listSwap l i j).length = l.length := by
  simp [listSwap]

theorem listSwap_involutive {l : List (List Char)} {i j : Nat}
    (hi : i < l.length) (hj : j < l.length) :
    listSwap (listSwap l i j) j i = l := by
  have hi' : i < (listSwap l i j).length := by rwa [length_listSwap]
  have hj' : j < (listSwap l i j).length := by rwa [length_listSwap]
  apply List.ext_getElem?
  intro n
  rw [getElem?_listSwap _ _ _ hj' hi' n]
  by_cases hni : n = i
  · rw [if_pos hni, getElem?_listSwap _ _ _ hi hj j, if_pos rfl, hni]
  · rw [if_neg hni]
    by_cases hnj : n = j
    · have hij : i ≠ j := fun h => hni (by rw [hnj, h])
      rw [if_pos hnj, getElem?_listSwap _ _ _ hi hj i, if_neg hij, if_pos rfl,
        hnj]
    · rw [if_neg hnj, getElem?_listSwap _ _ _ hi hj n, if_neg hnj, if_neg hni]

/-! ### Claim theorems: state machine -/

/-- C3: the clamp pass establishes the cursor invariant for any state
whatsoever (hence after any sequence of insert / delete / move-cursor /
move-item / goto / transfer operations): each list's clamped cursor is
strictly below the list's length when the list is non-empty and is 0 when the
list is empty. -/
theorem clampIndexes_bounds (s : App) :
    ((clampIndexes s).todos = [] → (clampIndexes s).todosIdx = 0) ∧
    ((clampIndexes s).todos ≠ [] →
      (clampIndexes s).todosIdx < (clampIndexes s).todos.length) ∧
    ((clampIndexes s).dones = [] → (clampIndexes s).donesIdx = 0) ∧
    ((clampIndexes s).dones ≠ [] →
      (clampIndexes s).donesIdx < (clampIndexes s).dones.length) := by
  refine ⟨fun h => ?_, fun h => ?_, fun h => ?_, fun h => ?_⟩
  · have h' : s.todos = [] := h
    show min s.todosIdx (s.todos.length - 1) = 0
    rw [h']
    simp
  · have h' : s.todos ≠ [] := h
    have hl : s.todos.length ≠ 0 := fun hc => h' (List.length_eq_zero.mp hc)
    show min s.todosIdx (s.todos.length - 1) < s.todos.length
    omega
  · have h' : s.dones = [] := h
    show min s.donesIdx (s.dones.length - 1) = 0
    rw [h']
    simp
  · have h' : s.dones ≠ [] := h
    have hl : s.dones.length ≠ 0 := fun hc => h' (List.length_eq_zero.mp hc)
    show min s.donesIdx (s.dones.length - 1) < s.dones.length
    omega

/-- Concrete state for the clamp witness: both cursors far out of range. -/
def wc3 : App := ⟨[['a']], [], 5, 7, .todos, .normal⟩

/-- Witness for `clampIndexes_bounds` at `wc3`. -/
theorem clampIndexes_bounds_witness :
    (clampIndexes wc3).todosIdx < (clampIndexes wc3).todos.length ∧
    (clampIndexes wc3).donesIdx = 0 :=
  ⟨(clampIndexes_bounds wc3).2.1 (by decide),
   (clampIndexes_bounds wc3).2.2.1 (by decide)⟩

/-- Concrete state for the tab-switch evaluation: Todos active. -/
def c2State : App := ⟨[['a']], [['b']], 0, 0, .todos, .normal⟩

/-- C2 (code evaluated at the failing input): pressing 'h' in Normal mode
decodes to `SwitchTab(Left)`, but `execute_action` discards the direction and
toggles, so with Todos already active the result is Dones — not the Todos the
claim (and the decoder's `Left`) names. Cursors are unchanged. -/
theorem switchTab_left_toggles :
    Action.tryFrom ⟨KeyCode.char 'h', false, false⟩ =
      some (Action.switchTab TabAction.left) ∧
    processKey ⟨KeyCode.char 'h', false, false⟩ c2State =
      some { c2State with currTab := Tab.dones } ∧
    Tab.dones ≠ Tab.todos := by
  decide

/-- Concrete insert-mode state whose buffer ends in a two-byte character
(U+00E9). -/
def c7State : App := ⟨[[Char.ofNat 0xE9]], [], 0, 0, .todos, .insert .new⟩

/-- C7 (code evaluated at the failing input): `DeleteChar` is implemented as
`buf.remove(buf.len() - 1)` on the byte length, so on a buffer whose last
character is multi-byte (here U+00E9, two UTF-8 bytes) it panics rather than
removing the character; on an empty buffer it is a no-op and on a buffer with
a single-byte tail it removes the last character. -/
theorem deleteChar_multibyte_panics :
    (Char.ofNat 0xE9).utf8Size = 2 ∧
    deleteCharBuf [Char.ofNat 0xE9] = none ∧
    handleInsertMode .deleteChar c7State = none ∧
    deleteCharBuf [] = some [] ∧
    deleteCharBuf ['a', 'b'] = some ['a'] := by
  decide

/-- C5: `Insert(Above)` (which enters Insert-New mode and inserts an empty
item at the clamped cursor) followed immediately by `Cancel` returns to Normal
mode with both lists — contents and order — exactly as before the insert. -/
theorem insert_above_cancel_noop (s : App) :
    ∃ t, (startInsertMode .up s).bind (handleInsertMode .cancel) = some t ∧
      t.todos = s.todos ∧ t.dones = s.dones ∧ t.mode = .normal ∧
      t.currTab = s.currTab := by
  obtain ⟨todos, dones, ti, di, tab, mode⟩ := s
  cases tab
  case todos =>
    have hmin : min ti todos.length ≤ todos.length := Nat.min_le_right _ _
    have hlen : (todos.insertIdx (min ti todos.length) ([] : List Char)).length
        = todos.length + 1 := List.length_insertIdx _ _ hmin
    have hlt : min ti todos.length <
        (todos.insertIdx (min ti todos.length) ([] : List Char)).length := by
      omega
    have hget := List.getElem?_eq_getElem hlt
    have hne : todos.insertIdx (min ti todos.length) ([] : List Char) ≠ [] :=
      List.ne_nil_of_length_pos (by omega)
    refine ⟨⟨todos, dones, min ti todos.length, di, .todos, .normal⟩, ?_, rfl,
      rfl, rfl, rfl⟩
    simp [startInsertMode, handleInsertMode, getCurrentBuffer, handleDelete,
      hget, hlt, isEmpty_false_of_ne_nil hne, List.eraseIdx_insertIdx]
    exact fun hcontra => absurd hcontra hne
  case dones =>
    have hmin : min di dones.length ≤ dones.length := Nat.min_le_right _ _
    have hlen : (dones.insertIdx (min di dones.length) ([] : List Char)).length
        = dones.length + 1 := List.length_insertIdx _ _ hmin
    have hlt : min di dones.length <
        (dones.insertIdx (min di dones.length) ([] : List Char)).length := by
      omega
    have hget := List.getElem?_eq_getElem hlt
    have hne : dones.insertIdx (min di dones.length) ([] : List Char) ≠ [] :=
      List.ne_nil_of_length_pos (by omega)
    refine ⟨⟨todos, dones, ti, min di dones.length, .dones, .normal⟩, ?_, rfl,
      rfl, rfl, rfl⟩
    simp [startInsertMode, handleInsertMode, getCurrentBuffer, handleDelete,
      hget, hlt, isEmpty_false_of_ne_nil hne, List.eraseIdx_insertIdx]
    exact fun hcontra => absurd hcontra hne

/-- C8: the Enter/transfer operation is a no-op when the active list is
empty; when the cursor is on an item it removes exactly that item from the
active list and appends it at the end of the other list, leaving both cursors,
the tab, the mode, and the other list's existing items (and their order)
unchanged. -/
theorem enter_transfer_spec (s : App) :
    (s.activeList = [] → handleEnterPress s = some s) ∧
    (s.activeIdx < s.activeList.length →
      ∃ t v, handleEnterPress s = some t ∧
        s.activeList[s.activeIdx]? = some v ∧
        t.currTab = s.currTab ∧ t.mode = s.mode ∧
        t.activeList = s.activeList.eraseIdx s.activeIdx ∧
        t.otherList = s.otherList ++ [v] ∧
        t.activeIdx = s.activeIdx ∧ t.otherIdx = s.otherIdx) := by
  obtain ⟨todos, dones, ti, di, tab, mode⟩ := s
  cases tab
  case todos =>
    constructor
    · intro h
      have h' : todos = [] := h
      subst h'
      simp [handleEnterPress]
    · intro h
      have h' : ti < todos.length := h
      have hget := List.getElem?_eq_getElem h'
      have hne : todos ≠ [] := List.ne_nil_of_length_pos (by omega)
      refine ⟨⟨todos.eraseIdx ti, dones ++ [todos.get ⟨ti, h'⟩], ti, di, .todos,
        mode⟩, todos.get ⟨ti, h'⟩, ?_, ?_, rfl, rfl, rfl, rfl, rfl, rfl⟩
      · simp only [handleEnterPress, isEmpty_false_of_ne_nil hne,
          Bool.false_eq_true, if_false, hget]
        rfl
      · show todos[ti]? = some (todos.get ⟨ti, h'⟩)
        rw [hget]
        rfl
  case dones =>
    constructor
    · intro h
      have h' : dones = [] := h
      subst h'
      simp [handleEnterPress]
    · intro h
      have h' : di < dones.length := h
      have hget := List.getElem?_eq_getElem h'
      have hne : dones ≠ [] := List.ne_nil_of_length_pos (by omega)
      refine ⟨⟨todos ++ [dones.get ⟨di, h'⟩], dones.eraseIdx di, ti, di, .dones,
        mode⟩, dones.get ⟨di, h'⟩, ?_, ?_, rfl, rfl, rfl, rfl, rfl, rfl⟩
      · simp only [handleEnterPress, isEmpty_false_of_ne_nil hne,
          Bool.false_eq_true, if_false, hget]
        rfl
      · show dones[di]? = some (dones.get ⟨di, h'⟩)
        rw [hget]
        rfl

/-- Concrete state for the transfer witness. -/
def wc8 : App := ⟨[['a'], ['b']], [['c']], 0, 0, .todos, .normal⟩

/-- Witness for `enter_transfer_spec` at `wc8`. -/
theorem enter_transfer_spec_witness :
    ∃ t v, handleEnterPress wc8 = some t ∧
      wc8.activeList[wc8.activeIdx]? = some v ∧
      t.currTab = wc8.currTab ∧ t.mode = wc8.mode ∧
      t.activeList = wc8.activeList.eraseIdx wc8.activeIdx ∧
      t.otherList = wc8.otherList ++ [v] ∧
      t.activeIdx = wc8.activeIdx ∧ t.otherIdx = wc8.otherIdx :=
  (enter_transfer_spec wc8).2 (by decide)

/-- C9: move-item is an adjacent swap that carries the cursor with its item:
it is a no-op on an empty list or when the move would leave the list, and
otherwise swaps the item at the cursor with its neighbor in the move direction
and moves the cursor onto the neighbor's old place; in particular, from cursor
index 0, `MoveItem(Down)` then `MoveItem(Up)` restores the whole state
exactly. -/
theorem move_item_spec (s : App) :
    (s.activeList = [] → ∀ d, handleMoveItem d s = some s) ∧
    (s.activeIdx < s.activeList.length →
      (s.activeIdx = s.activeList.length - 1 → handleMoveItem .down s = some s) ∧
      (s.activeIdx = 0 → handleMoveItem .up s = some s) ∧
      (s.activeIdx + 1 < s.activeList.length →
        ∃ t, handleMoveItem .down s = some t ∧ t.currTab = s.currTab ∧
          t.mode = s.mode ∧ t.activeIdx = s.activeIdx + 1 ∧
          t.activeList = listSwap s.activeList s.activeIdx (s.activeIdx + 1) ∧
          t.otherList = s.otherList ∧ t.otherIdx = s.otherIdx) ∧
      (0 < s.activeIdx →
        ∃ t, handleMoveItem .up s = some t ∧ t.currTab = s.currTab ∧
          t.mode = s.mode ∧ t.activeIdx = s.activeIdx - 1 ∧
          t.activeList = listSwap s.activeList s.activeIdx (s.activeIdx - 1) ∧
          t.otherList = s.otherList ∧ t.otherIdx = s.otherIdx)) ∧
    (s.activeIdx = 0 →
      (handleMoveItem .down s).bind (handleMoveItem .up) = some s) := by
  obtain ⟨todos, dones, ti, di, tab, mode⟩ := s
  cases tab
  case todos =>
    refine ⟨?_, ?_, ?_⟩
    · intro h d
      have h' : todos = [] := h
      subst h'
      simp [handleMoveItem]
    · intro h
      have h' : ti < todos.length := h
      have hne : todos ≠ [] := List.ne_nil_of_length_pos (by omega)
      refine ⟨?_, ?_, ?_, ?_⟩
      · intro hEnd
        have hEnd' : ti = todos.length - 1 := hEnd
        simp [handleMoveItem, isEmpty_false_of_ne_nil hne, hEnd']
      · intro h0
        have h0' : ti = 0 := h0
        simp [handleMoveItem, isEmpty_false_of_ne_nil hne, h0']
      · intro hlt2
        have hlt2' : ti + 1 < todos.length := hlt2
        have hneq : ti ≠ todos.length - 1 := by omega
        refine ⟨⟨listSwap todos ti (ti + 1), dones, ti + 1, di, .todos, mode⟩,
          ?_, rfl, rfl, rfl, rfl, rfl, rfl⟩
        simp [handleMoveItem, isEmpty_false_of_ne_nil hne, hneq, h', hlt2']
      · intro hpos
        have hpos' : 0 < ti := hpos
        have hneq : ti ≠ 0 := by omega
        have hsub : ti - 1 < todos.length := by omega
        refine ⟨⟨listSwap todos ti (ti - 1), dones, ti - 1, di, .todos, mode⟩,
          ?_, rfl, rfl, rfl, rfl, rfl, rfl⟩
        simp [handleMoveItem, isEmpty_false_of_ne_nil hne, hneq, h', hsub]
    · intro h0
      have h0' : ti = 0 := h0
      subst h0'
      by_cases hemp : todos = []
      · subst hemp
        simp [handleMoveItem]
      · have hlenpos : 0 < todos.length := List.length_pos.mpr hemp
        by_cases hone : todos.length = 1
        · simp [handleMoveItem, isEmpty_false_of_ne_nil hemp, hone]
        · have h2 : 1 < todos.length := by omega
          have hne01 : (0 : Nat) ≠ todos.length - 1 := by omega
          have hswap := listSwap_involutive (l := todos) (i := 0) (j := 1)
            hlenpos h2
          have hlen1 : (listSwap todos 0 1).length = todos.length :=
            length_listSwap _ _ _
          have hne1 : listSwap todos 0 1 ≠ [] :=
            List.ne_nil_of_length_pos (by omega)
          simp [handleMoveItem, isEmpty_false_of_ne_nil hemp,
            isEmpty_false_of_ne_nil hne1, hne01, hlen1, h2, hlenpos, hswap,
            hne1]
  case dones =>
    refine ⟨?_, ?_, ?_⟩
    · intro h d
      have h' : dones = [] := h
      subst h'
      simp [handleMoveItem]
    · intro h
      have h' : di < dones.length := h
      have hne : dones ≠ [] := List.ne_nil_of_length_pos (by omega)
      refine ⟨?_, ?_, ?_, ?_⟩
      · intro hEnd
        have hEnd' : di = dones.length - 1 := hEnd
        simp [handleMoveItem, isEmpty_false_of_ne_nil hne, hEnd']
      · intro h0
        have h0' : di = 0 := h0
        simp [handleMoveItem, isEmpty_false_of_ne_nil hne, h0']
      · intro hlt2
        have hlt2' : di + 1 < dones.length := hlt2
        have hneq : di ≠ dones.length - 1 := by omega
        refine ⟨⟨todos, listSwap dones di (di + 1), ti, di + 1, .dones, mode⟩,
          ?_, rfl, rfl, rfl, rfl, rfl, rfl⟩
        simp [handleMoveItem, isEmpty_false_of_ne_nil hne, hneq, h', hlt2']
      · intro hpos
        have hpos' : 0 < di := hpos
        have hneq : di ≠ 0 := by omega
        have hsub : di - 1 < dones.length := by omega
        refine ⟨⟨todos, listSwap dones di (di - 1), ti, di - 1, .dones, mode⟩,
          ?_, rfl, rfl, rfl, rfl, rfl, rfl⟩
        simp [handleMoveItem, isEmpty_false_of_ne_nil hne, hneq, h', hsub]
    · intro h0
      have h0' : di = 0 := h0
      subst h0'
      by_cases hemp : dones = []
      · subst hemp
        simp [handleMoveItem]
      · have hlenpos : 0 < dones.length := List.length_pos.mpr hemp
        by_cases hone : dones.length = 1
        · simp [handleMoveItem, isEmpty_false_of_ne_nil hemp, hone]
        · have h2 : 1 < dones.length := by omega
          have hne01 : (0 : Nat) ≠ dones.length - 1 := by omega
          have hswap := listSwap_involutive (l := dones) (i := 0) (j := 1)
            hlenpos h2
          have hlen1 : (listSwap dones 0 1).length = dones.length :=
            length_listSwap _ _ _
          have hne1 : listSwap dones 0 1 ≠ [] :=
            List.ne_nil_of_length_pos (by omega)
          simp [handleMoveItem, isEmpty_false_of_ne_nil hemp,
            isEmpty_false_of_ne_nil hne1, hne01, hlen1, h2, hlenpos, hswap,
            hne1]

/-- Concrete state for the move-item witness: cursor on the middle item. -/
def wc9 : App := ⟨[['a'], ['b'], ['c']], [], 1, 0, .todos, .normal⟩

/-- Witness for `move_item_spec` at `wc9`: moving the middle item up. -/
theorem move_item_spec_witness :
    ∃ t, handleMoveItem .up wc9 = some t ∧ t.currTab = wc9.currTab ∧
      t.mode = wc9.mode ∧ t.activeIdx = wc9.activeIdx - 1 ∧
      t.activeList = listSwap wc9.activeList wc9.activeIdx (wc9.activeIdx - 1) ∧
      t.otherList = wc9.otherList ∧ t.otherIdx = wc9.otherIdx :=
  (((move_item_spec wc9).2.1 (by decide)).2.2.2) (by decide)

/-! ### C6: Insert-Edit cancel -/

/-- A sequence of insert-mode actions applied through `handle_insert_mode`. -/
def applyEdits (es : List InsertAction) (s : App) : Option App :=
  es.foldlM (fun st e => handleInsertMode e st) s

theorem set_of_getElem? {α : Type} {l : List α} {n : Nat} {a : α}
    (h : l[n]? = some a) : l.set n a = l := by
  induction l generalizing n with
  | nil => simp at h
  | cons x xs ih =>
    cases n with
    | zero =>
      simp only [List.getElem?_cons_zero, Option.some.injEq] at h
      simp [h]
    | succ m =>
      simp only [List.getElem?_cons_succ] at h
      simp [ih h]

/-- Invariant holding while Insert-Edit mode is open: tab, cursors and the
inactive list are untouched, the mode still carries the snapshot, and the
active list differs from the original at most in the buffer under the
cursor. -/
def EditInv (s0 : App) (snap : List Char) (t : App) : Prop :=
  t.currTab = s0.currTab ∧ t.todosIdx = s0.todosIdx ∧
  t.donesIdx = s0.donesIdx ∧ t.mode = Mode.insert (InsertMode.edit snap) ∧
  (s0.currTab = Tab.todos →
    t.dones = s0.dones ∧ ∃ b, t.todos = s0.todos.set s0.todosIdx b) ∧
  (s0.currTab = Tab.dones →
    t.todos = s0.todos ∧ ∃ b, t.dones = s0.dones.set s0.donesIdx b)

theorem editInv_start {s0 : App} {snap : List Char}
    (hsnap : getCurrentBuffer s0 = some snap) :
    EditInv s0 snap (startEditMode s0) := by
  rw [startEditMode, hsnap]
  refine ⟨rfl, rfl, rfl, rfl, fun htab => ⟨rfl, snap, ?_⟩,
    fun htab => ⟨rfl, snap, ?_⟩⟩
  · have hget : s0.todos[s0.todosIdx]? = some snap := by
      rw [getCurrentBuffer, htab] at hsnap
      exact hsnap
    exact (set_of_getElem? hget).symm
  · have hget : s0.dones[s0.donesIdx]? = some snap := by
      rw [getCurrentBuffer, htab] at hsnap
      exact hsnap
    exact (set_of_getElem? hget).symm

theorem handleInsertMode_enter {t : App} {buf : List Char}
    (hbuf : getCurrentBuffer t = some buf) :
    handleInsertMode .enter t = some { t with mode := .normal } := by
  rw [handleInsertMode, hbuf]

theorem handleInsertMode_char {t : App} {buf : List Char} {c : Char}
    (hbuf : getCurrentBuffer t = some buf) :
    handleInsertMode (.char c) t = some (setCurrentBuffer t (buf ++ [c])) := by
  rw [handleInsertMode, hbuf]

theorem handleInsertMode_deleteChar {t : App} {buf : List Char}
    (hbuf : getCurrentBuffer t = some buf) :
    handleInsertMode .deleteChar t =
      (deleteCharBuf buf).map (setCurrentBuffer t) := by
  rw [handleInsertMode, hbuf]

theorem handleInsertMode_cancel_edit {t : App} {buf snap : List Char}
    (hbuf : getCurrentBuffer t = some buf)
    (hmode : t.mode = Mode.insert (InsertMode.edit snap)) :
    handleInsertMode .cancel t =
      some { setCurrentBuffer t snap with mode := .normal } := by
  rw [handleInsertMode, hbuf, hmode]

theorem handleInsertMode_cancel_new {t : App} {buf : List Char}
    (hbuf : getCurrentBuffer t = some buf)
    (hmode : t.mode = Mode.insert InsertMode.new) :
    handleInsertMode .cancel t = handleDelete { t with mode := .normal } := by
  rw [handleInsertMode, hbuf, hmode]

theorem editInv_setCurrentBuffer {s0 t : App} {snap b : List Char}
    (hinv : EditInv s0 snap t) : EditInv s0 snap (setCurrentBuffer t b) := by
  obtain ⟨ttodos, tdones, tti, tdi, ttab, tmode⟩ := t
  obtain ⟨htab, hti, hdi, hmode, htodos, hdones⟩ := hinv
  cases ttab
  case todos =>
    have hc : s0.currTab = Tab.todos := htab.symm
    obtain ⟨hd, bb, hb⟩ := htodos hc
    have hb2 : ttodos = s0.todos.set s0.todosIdx bb := hb
    have hti2 : tti = s0.todosIdx := hti
    refine ⟨htab, hti, hdi, hmode, fun _ => ⟨hd, b, ?_⟩,
      fun hcon => absurd (hc.symm.trans hcon) (fun hh => Tab.noConfusion hh)⟩
    show ttodos.set tti b = s0.todos.set s0.todosIdx b
    rw [hb2, hti2, List.set_set]
  case dones =>
    have hc : s0.currTab = Tab.dones := htab.symm
    obtain ⟨hd, bb, hb⟩ := hdones hc
    have hb2 : tdones = s0.dones.set s0.donesIdx bb := hb
    have hdi2 : tdi = s0.donesIdx := hdi
    refine ⟨htab, hti, hdi, hmode,
      fun hcon => absurd (hc.symm.trans hcon) (fun hh => Tab.noConfusion hh),
      fun _ => ⟨hd, b, ?_⟩⟩
    show tdones.set tdi b = s0.dones.set s0.donesIdx b
    rw [hb2, hdi2, List.set_set]

theorem editInv_step {s0 t u : App} {snap : List Char} {e : InsertAction}
    (he : (∃ c, e = InsertAction.char c) ∨ e = InsertAction.deleteChar)
    (hinv : EditInv s0 snap t) (h : handleInsertMode e t = some u) :
    EditInv s0 snap u := by
  cases hbuf : getCurrentBuffer t with
  | none => rw [handleInsertMode, hbuf] at h; exact Option.noConfusion h
  | some buf =>
    rcases he with ⟨c, rfl⟩ | rfl
    · rw [handleInsertMode_char hbuf] at h
      cases Option.some.inj h
      exact editInv_setCurrentBuffer hinv
    · rw [handleInsertMode_deleteChar hbuf] at h
      cases hdel : deleteCharBuf buf with
      | none => rw [hdel] at h; exact Option.noConfusion h
      | some b =>
        rw [hdel] at h
        have h2 : setCurrentBuffer t b = u := Option.some.inj h
        cases h2
        exact editInv_setCurrentBuffer hinv

theorem editInv_fold {s0 : App} {snap : List Char} :
    ∀ (es : List InsertAction) (t u : App),
      (∀ e ∈ es, (∃ c, e = InsertAction.char c) ∨ e = InsertAction.deleteChar) →
      EditInv s0 snap t → applyEdits es t = some u → EditInv s0 snap u := by
  intro es
  induction es with
  | nil =>
    intro t u _ hinv h
    simp only [applyEdits, List.foldlM_nil, Option.pure_def,
      Option.some.injEq] at h
    rwa [← h]
  | cons e es ih =>
    intro t u hall hinv h
    simp only [applyEdits, List.foldlM_cons] at h
    cases hstep : handleInsertMode e t with
    | none => rw [hstep] at h; exact Option.noConfusion h
    | some v =>
      rw [hstep] at h
      have hinv2 := editInv_step (hall e (by simp)) hinv hstep
      exact ih v u (fun x hx => hall x (by simp [hx])) hinv2 h

/-- C6: for any item and any sequence of character-append and Backspace edits
performed in Insert-Edit mode, `Cancel` restores the edited item's buffer to
the exact snapshot taken when Edit was entered, so both lists come back equal
to their pre-edit contents and the mode returns to Normal. -/
theorem edit_cancel_restores (s t : App) (snap : List Char)
    (edits : List InsertAction)
    (hsnap : getCurrentBuffer s = some snap)
    (hedits : ∀ e ∈ edits,
      (∃ c, e = InsertAction.char c) ∨ e = InsertAction.deleteChar)
    (hfold : applyEdits edits (startEditMode s) = some t) :
    ∃ u, handleInsertMode .cancel t = some u ∧
      u.todos = s.todos ∧ u.dones = s.dones ∧ u.mode = .normal ∧
      u.currTab = s.currTab ∧ getCurrentBuffer u = some snap := by
  have hinv : EditInv s snap t :=
    editInv_fold edits (startEditMode s) t hedits (editInv_start hsnap) hfold
  obtain ⟨stodos, sdones, sti, sdi, stab, smode⟩ := s
  obtain ⟨ttodos, tdones, tti, tdi, ttab, tmode⟩ := t
  obtain ⟨htab, hti, hdi, hmode, htodos, hdones⟩ := hinv
  cases stab
  case todos =>
    cases ttab
    case dones => exact absurd htab (fun hh => Tab.noConfusion hh)
    case todos =>
    obtain ⟨hd, b, hb⟩ := htodos rfl
    have hti2 : tti = sti := hti
    have hb2 : ttodos = stodos.set sti b := hb
    have hd2 : tdones = sdones := hd
    have hmode2 : (⟨ttodos, tdones, tti, tdi, .todos, tmode⟩ : App).mode =
        Mode.insert (InsertMode.edit snap) := hmode
    have hget0 : stodos[sti]? = some snap := hsnap
    have hlt : sti < stodos.length := by
      rcases List.getElem?_eq_some_iff.mp hget0 with ⟨hh, _⟩
      exact hh
    have hset : stodos.set sti snap = stodos := set_of_getElem? hget0
    have hbufget : getCurrentBuffer ⟨ttodos, tdones, tti, tdi, .todos, tmode⟩ =
        some b := by
      show ttodos[tti]? = some b
      rw [hb2, hti2]
      exact List.getElem?_set_self hlt
    refine ⟨⟨stodos, sdones, sti, tdi, .todos, .normal⟩, ?_, rfl, rfl, rfl,
      rfl, hget0⟩
    rw [handleInsertMode_cancel_edit hbufget hmode2]
    show some (⟨ttodos.set tti snap, tdones, tti, tdi, .todos, .normal⟩ : App) = _
    rw [hb2, hti2, hd2, List.set_set, hset]
  case dones =>
    cases ttab
    case todos => exact absurd htab (fun hh => Tab.noConfusion hh)
    case dones =>
    obtain ⟨hd, b, hb⟩ := hdones rfl
    have hdi2 : tdi = sdi := hdi
    have hb2 : tdones = sdones.set sdi b := hb
    have hd2 : ttodos = stodos := hd
    have hmode2 : (⟨ttodos, tdones, tti, tdi, .dones, tmode⟩ : App).mode =
        Mode.insert (InsertMode.edit snap) := hmode
    have hget0 : sdones[sdi]? = some snap := hsnap
    have hlt : sdi < sdones.length := by
      rcases List.getElem?_eq_some_iff.mp hget0 with ⟨hh, _⟩
      exact hh
    have hset : sdones.set sdi snap = sdones := set_of_getElem? hget0
    have hbufget : getCurrentBuffer ⟨ttodos, tdones, tti, tdi, .dones, tmode⟩ =
        some b := by
      show tdones[tdi]? = some b
      rw [hb2, hdi2]
      exact List.getElem?_set_self hlt
    refine ⟨⟨stodos, sdones, tti, sdi, .dones, .normal⟩, ?_, rfl, rfl, rfl,
      rfl, hget0⟩
    rw [handleInsertMode_cancel_edit hbufget hmode2]
    show some (⟨ttodos, tdones.set tdi snap, tti, tdi, .dones, .normal⟩ : App) = _
    rw [hb2, hdi2, hd2, List.set_set, hset]

/-- Concrete pre-edit state for the edit-cancel witness. -/
def wc6 : App := ⟨[['a']], [], 0, 0, .todos, .normal⟩

/-- The state after entering Edit on `wc6` and applying the edits `x`,
Backspace, `y`. -/
def wc6t : App := ⟨[['a', 'y']], [], 0, 0, .todos, .insert (.edit ['a'])⟩

/-- Witness for `edit_cancel_restores` at `wc6` with a concrete edit
sequence. -/
theorem edit_cancel_restores_witness :
    ∃ u, handleInsertMode .cancel wc6t = some u ∧
      u.todos = wc6.todos ∧ u.dones = wc6.dones ∧ u.mode = .normal ∧
      u.currTab = wc6.currTab ∧ getCurrentBuffer u = some ['a'] :=
  edit_cancel_restores wc6 wc6t ['a']
    [.char 'x', .deleteChar, .char 'y']
    (by decide)
    (by
      intro e he
      simp only [List.mem_cons, List.not_mem_nil, or_false] at he
      rcases he with rfl | rfl | rfl
      · exact Or.inl ⟨'x', rfl⟩
      · exact Or.inr rfl
      · exact Or.inl ⟨'y', rfl⟩)
    (by decide)

/-! ### C10: insert-mode cursor invariant over reachable states -/

/-- The invariant backing the insert-mode handler's `unwrap`: whenever the
mode is Insert (New or Edit), the active list is non-empty and the active
cursor is in bounds. -/
def InsertInv (s : App) : Prop :=
  ∀ im, s.mode = Mode.insert im →
    s.activeList ≠ [] ∧ s.activeIdx < s.activeList.length

theorem insertInv_of_mode_normal {s : App} (h : s.mode = Mode.normal) :
    InsertInv s := by
  intro im hm
  rw [h] at hm
  exact Mode.noConfusion hm

theorem insertInv_of_mode_help {s : App} (h : s.mode = Mode.help) :
    InsertInv s := by
  intro im hm
  rw [h] at hm
  exact Mode.noConfusion hm

theorem insertInv_clamp {s : App} (h : InsertInv s) :
    InsertInv (clampIndexes s) := by
  obtain ⟨todos, dones, ti, di, tab, mode⟩ := s
  intro im hm
  have hm0 : (⟨todos, dones, ti, di, tab, mode⟩ : App).mode =
      Mode.insert im := hm
  obtain ⟨hne, hlt⟩ := h im hm0
  cases tab
  case todos =>
    have hne2 : todos ≠ [] := hne
    have hlt2 : ti < todos.length := hlt
    refine ⟨hne2, ?_⟩
    show min ti (todos.length - 1) < todos.length
    exact lt_of_le_of_lt (min_le_left _ _) hlt2
  case dones =>
    have hne2 : dones ≠ [] := hne
    have hlt2 : di < dones.length := hlt
    refine ⟨hne2, ?_⟩
    show min di (dones.length - 1) < dones.length
    exact lt_of_le_of_lt (min_le_left _ _) hlt2

theorem mode_handleEnterPress {s u : App} (h : handleEnterPress s = some u) :
    u.mode = s.mode := by
  obtain ⟨todos, dones, ti, di, tab, mode⟩ := s
  cases tab <;> simp only [handleEnterPress] at h <;>
    (repeat' split at h) <;>
    first
      | (cases Option.some.inj h; rfl)
      | exact Option.noConfusion h

theorem mode_handleDelete {s u : App} (h : handleDelete s = some u) :
    u.mode = s.mode := by
  obtain ⟨todos, dones, ti, di, tab, mode⟩ := s
  cases tab <;> simp only [handleDelete] at h <;>
    (repeat' split at h) <;>
    first
      | (cases Option.some.inj h; rfl)
      | exact Option.noConfusion h

theorem mode_handleMoveItem {d : KeyCode} {s u : App}
    (h : handleMoveItem d s = some u) : u.mode = s.mode := by
  obtain ⟨todos, dones, ti, di, tab, mode⟩ := s
  cases tab <;> simp only [handleMoveItem] at h <;>
    (repeat' split at h) <;>
    first
      | (cases Option.some.inj h; rfl)
      | exact Option.noConfusion h

theorem insertInv_setCurrentBuffer {s : App} {b : List Char}
    (hinv : InsertInv s) : InsertInv (setCurrentBuffer s b) := by
  obtain ⟨todos, dones, ti, di, tab, mode⟩ := s
  cases tab
  case todos =>
    intro im hm
    have hm0 : mode = Mode.insert im := hm
    obtain ⟨hne, hlt⟩ := hinv im hm0
    have hlt2 : ti < todos.length := hlt
    refine ⟨?_, ?_⟩
    · show todos.set ti b ≠ []
      exact List.ne_nil_of_length_pos (by rw [List.length_set]; omega)
    · show ti < (todos.set ti b).length
      rw [List.length_set]
      exact hlt2
  case dones =>
    intro im hm
    have hm0 : mode = Mode.insert im := hm
    obtain ⟨hne, hlt⟩ := hinv im hm0
    have hlt2 : di < dones.length := hlt
    refine ⟨?_, ?_⟩
    · show dones.set di b ≠ []
      exact List.ne_nil_of_length_pos (by rw [List.length_set]; omega)
    · show di < (dones.set di b).length
      rw [List.length_set]
      exact hlt2

theorem insertInv_startEditMode {s : App} (hmode : s.mode = Mode.normal) :
    InsertInv (startEditMode s) := by
  obtain ⟨todos, dones, ti, di, tab, mode⟩ := s
  cases tab
  case todos =>
    cases hbuf : todos[ti]? with
    | none =>
      simp only [startEditMode, getCurrentBuffer, hbuf]
      exact insertInv_of_mode_normal hmode
    | some snap =>
      simp only [startEditMode, getCurrentBuffer, hbuf]
      intro im hm
      have hlt : ti < todos.length := by
        rcases List.getElem?_eq_some_iff.mp hbuf with ⟨hh, _⟩
        exact hh
      refine ⟨?_, hlt⟩
      show todos ≠ []
      exact List.ne_nil_of_length_pos (by omega)
  case dones =>
    cases hbuf : dones[di]? with
    | none =>
      simp only [startEditMode, getCurrentBuffer, hbuf]
      exact insertInv_of_mode_normal hmode
    | some snap =>
      simp only [startEditMode, getCurrentBuffer, hbuf]
      intro im hm
      have hlt : di < dones.length := by
        rcases List.getElem?_eq_some_iff.mp hbuf with ⟨hh, _⟩
        exact hh
      refine ⟨?_, hlt⟩
      show dones ≠ []
      exact List.ne_nil_of_length_pos (by omega)

theorem insertInv_executeAction {a : Action} {s u : App}
    (hmode : s.mode = Mode.normal) (h : executeAction a s = some u) :
    InsertInv u := by
  obtain ⟨todos, dones, ti, di, tab, mode⟩ := s
  have hm0 : mode = Mode.normal := hmode
  subst hm0
  cases a with
  | enter => exact insertInv_of_mode_normal (mode_handleEnterPress h)
  | switchTab t =>
    cases Option.some.inj h
    exact insertInv_of_mode_normal rfl
  | insert d =>
    cases d
    case up =>
      cases tab
      case todos =>
        cases Option.some.inj h
        intro im hm
        have hmin : min ti todos.length ≤ todos.length := Nat.min_le_right _ _
        have hlen : (todos.insertIdx (min ti todos.length)
            ([] : List Char)).length = todos.length + 1 :=
          List.length_insertIdx _ _ hmin
        refine ⟨?_, ?_⟩
        · show todos.insertIdx (min ti todos.length) ([] : List Char) ≠ []
          exact List.ne_nil_of_length_pos (by omega)
        · show min ti todos.length <
            (todos.insertIdx (min ti todos.length) ([] : List Char)).length
          rw [hlen]
          exact Nat.lt_succ_of_le (min_le_right _ _)
      case dones =>
        cases Option.some.inj h
        intro im hm
        have hmin : min di dones.length ≤ dones.length := Nat.min_le_right _ _
        have hlen : (dones.insertIdx (min di dones.length)
            ([] : List Char)).length = dones.length + 1 :=
          List.length_insertIdx _ _ hmin
        refine ⟨?_, ?_⟩
        · show dones.insertIdx (min di dones.length) ([] : List Char) ≠ []
          exact List.ne_nil_of_length_pos (by omega)
        · show min di dones.length <
            (dones.insertIdx (min di dones.length) ([] : List Char)).length
          rw [hlen]
          exact Nat.lt_succ_of_le (min_le_right _ _)
    case down =>
      cases tab
      case todos =>
        cases Option.some.inj h
        intro im hm
        have hmin : min (ti + 1) todos.length ≤ todos.length :=
          Nat.min_le_right _ _
        have hlen : (todos.insertIdx (min (ti + 1) todos.length)
            ([] : List Char)).length = todos.length + 1 :=
          List.length_insertIdx _ _ hmin
        refine ⟨?_, ?_⟩
        · show todos.insertIdx (min (ti + 1) todos.length) ([] : List Char) ≠ []
          exact List.ne_nil_of_length_pos (by omega)
        · show min (ti + 1) todos.length <
            (todos.insertIdx (min (ti + 1) todos.length) ([] : List Char)).length
          rw [hlen]
          exact Nat.lt_succ_of_le (min_le_right _ _)
      case dones =>
        cases Option.some.inj h
        intro im hm
        have hmin : min (di + 1) dones.length ≤ dones.length :=
          Nat.min_le_right _ _
        have hlen : (dones.insertIdx (min (di + 1) dones.length)
            ([] : List Char)).length = dones.length + 1 :=
          List.length_insertIdx _ _ hmin
        refine ⟨?_, ?_⟩
        · show dones.insertIdx (min (di + 1) dones.length) ([] : List Char) ≠ []
          exact List.ne_nil_of_length_pos (by omega)
        · show min (di + 1) dones.length <
            (dones.insertIdx (min (di + 1) dones.length) ([] : List Char)).length
          rw [hlen]
          exact Nat.lt_succ_of_le (min_le_right _ _)
    all_goals exact Option.noConfusion h
  | edit =>
    cases Option.some.inj h
    exact insertInv_startEditMode rfl
  | moveCursor d =>
    cases d
    case up =>
      cases tab <;> (cases Option.some.inj h; exact insertInv_of_mode_normal rfl)
    case down =>
      cases tab <;> (cases Option.some.inj h; exact insertInv_of_mode_normal rfl)
    all_goals exact Option.noConfusion h
  | moveItem d => exact insertInv_of_mode_normal (mode_handleMoveItem h)
  | gotoBegin =>
    cases Option.some.inj h
    cases tab <;> exact insertInv_of_mode_normal rfl
  | gotoEnd =>
    cases Option.some.inj h
    cases tab <;> exact insertInv_of_mode_normal rfl
  | delete => exact insertInv_of_mode_normal (mode_handleDelete h)
  | saveQuit =>
    cases Option.some.inj h
    exact insertInv_of_mode_normal rfl
  | noSaveQuit =>
    cases Option.some.inj h
    exact insertInv_of_mode_normal rfl
  | showHelp =>
    cases Option.some.inj h
    exact insertInv_of_mode_help rfl
  | showNumber =>
    cases Option.some.inj h
    exact insertInv_of_mode_normal rfl

theorem insertInv_handleInsertMode {a : InsertAction} {s u : App}
    (hinv : InsertInv s) (h : handleInsertMode a s = some u) : InsertInv u := by
  cases hbuf : getCurrentBuffer s with
  | none => rw [handleInsertMode, hbuf] at h; exact Option.noConfusion h
  | some buf =>
    cases a with
    | enter =>
      rw [handleInsertMode_enter hbuf] at h
      cases Option.some.inj h
      exact insertInv_of_mode_normal rfl
    | char c =>
      rw [handleInsertMode_char hbuf] at h
      cases Option.some.inj h
      exact insertInv_setCurrentBuffer hinv
    | deleteChar =>
      rw [handleInsertMode_deleteChar hbuf] at h
      cases hdel : deleteCharBuf buf with
      | none => rw [hdel] at h; exact Option.noConfusion h
      | some b =>
        rw [hdel] at h
        have h2 : setCurrentBuffer s b = u := Option.some.inj h
        cases h2
        exact insertInv_setCurrentBuffer hinv
    | cancel =>
      cases hm : s.mode with
      | normal =>
        rw [handleInsertMode, hbuf, hm] at h
        exact Option.noConfusion h
      | help =>
        rw [handleInsertMode, hbuf, hm] at h
        exact Option.noConfusion h
      | insert im =>
        cases im with
        | new =>
          rw [handleInsertMode_cancel_new hbuf hm] at h
          exact insertInv_of_mode_normal (mode_handleDelete h)
        | edit snap =>
          rw [handleInsertMode_cancel_edit hbuf hm] at h
          cases Option.some.inj h
          exact insertInv_of_mode_normal rfl

theorem insertInv_handleHelpMode {a : Action} {s : App}
    (hmode : s.mode = Mode.help) : InsertInv (handleHelpMode a s) := by
  cases a <;> simp only [handleHelpMode] <;>
    first
      | exact insertInv_of_mode_normal rfl
      | exact insertInv_of_mode_help hmode

theorem insertInv_processKey {k : KeyEvent} {s u : App}
    (hinv : InsertInv s) (h : processKey k s = some u) : InsertInv u := by
  cases hm : s.mode with
  | normal =>
    rw [processKey, hm] at h
    cases ha : Action.tryFrom k with
    | none =>
      rw [ha] at h
      cases Option.some.inj h
      exact hinv
    | some a =>
      rw [ha] at h
      exact insertInv_executeAction hm h
  | insert im =>
    rw [processKey, hm] at h
    cases ha : InsertAction.tryFrom k with
    | none =>
      rw [ha] at h
      cases Option.some.inj h
      exact hinv
    | some a =>
      rw [ha] at h
      exact insertInv_handleInsertMode hinv h
  | help =>
    rw [processKey, hm] at h
    cases ha : Action.tryFrom k with
    | none =>
      rw [ha] at h
      cases Option.some.inj h
      exact hinv
    | some a =>
      rw [ha] at h
      cases Option.some.inj h
      exact insertInv_handleHelpMode hm

/-- C10: in every state reachable from a fresh `App` in which the mode is
Insert (New or Edit), the active list is non-empty and the active cursor is
strictly below its length, so the insert-mode handler's current-buffer lookup
succeeds (`isSome`) and its `unwrap` panic branch is unreachable. -/
theorem insert_mode_invariant (s : App) (hr : Reachable s) :
    ∀ im, s.mode = Mode.insert im →
      s.activeList ≠ [] ∧ s.activeIdx < s.activeList.length ∧
      (getCurrentBuffer s).isSome = true := by
  have hinv : InsertInv s := by
    induction hr with
    | start todos dones => exact insertInv_of_mode_normal rfl
    | step hr hstep ih =>
      cases hstep with
      | noKey => exact insertInv_clamp ih
      | key s2 k hk => exact insertInv_processKey (insertInv_clamp ih) hk
  intro im hm
  obtain ⟨hne, hlt⟩ := hinv im hm
  refine ⟨hne, hlt, ?_⟩
  obtain ⟨todos, dones, ti, di, tab, mode⟩ := s
  cases tab
  case todos =>
    have hlt2 : ti < todos.length := hlt
    show (todos[ti]?).isSome = true
    rw [List.getElem?_eq_getElem hlt2]
    rfl
  case dones =>
    have hlt2 : di < dones.length := hlt
    show (dones[di]?).isSome = true
    rw [List.getElem?_eq_getElem hlt2]
    rfl

/-- A concrete reachable insert-mode state: press 'i' on an empty document. -/
def w10 : App := ⟨[[]], [], 0, 0, .todos, .insert .new⟩

/-- Witness for `insert_mode_invariant` at `w10`, reached from the initial
empty document by one main-loop tick handling the key 'i'. -/
theorem insert_mode_invariant_witness :
    w10.activeList ≠ [] ∧ w10.activeIdx < w10.activeList.length ∧
      (getCurrentBuffer w10).isSome = true :=
  insert_mode_invariant w10
    (Reachable.step (Reachable.start [] [])
      (Step.key _ _ ⟨KeyCode.char 'i', false, false⟩ (by decide)))
    InsertMode.new rfl

end TodoApp
